import Mathlib

/-!
Verification of the ka-limited-infection coaching-graph infection engine.

The development shallowly embeds the Python sources `graph.py` and
`infect.py`: nodes carry neighbor id sets and a feature set, a graph is an
association list from ids to nodes, BFS is modelled with an explicit fuel
that provably suffices, and the approximate solver's float arithmetic is
modelled over `ℚ`.  Python sets are modelled as `Finset`; where the code
iterates over a set (whose order Python leaves unspecified) the embedding
iterates in ascending order.
-/

/-- A feature token, the character sequence of the Python string. -/
abbrev Feat := List Char

/-- Model of `graph.Node` (specialised to `infect.User`): neighbor id sets and the
data payload, which for users is the feature set.  The Python visited flag
is traversal-local scratch that `connected_component` resets before every
use, so the BFS below tracks the visited set explicitly instead. -/
structure Node where
  incoming : Finset Nat
  outgoing : Finset Nat
  features : Finset Feat
deriving DecidableEq

/-- Model of `graph.Graph`: nodes keyed by id (`self._nodes`). -/
structure Graph where
  nodes : List (Nat × Node)
deriving DecidableEq

/-- Model of `Graph.find_node`: dictionary lookup; a missing id raises `KeyError`
in Python, modelled as `none`. -/
def Graph.find_node (g : Graph) (i : Nat) : Option Node :=
  g.nodes.lookup i

/-- The set of ids present in the graph (`self._nodes.keys()`). -/
def Graph.allIds (g : Graph) : Finset Nat :=
  (g.nodes.map Prod.fst).toFinset

/-- Model of `Node.neighbors` for the node with id `i`: union of incoming and
outgoing neighbor ids (empty for an absent id). -/
def Graph.neighborsOf (g : Graph) (i : Nat) : Finset Nat :=
  match g.find_node i with
  | some nd => nd.incoming ∪ nd.outgoing
  | none => ∅

/-- Every neighbor recorded in the graph is itself a node of the graph.
Graphs built through `add_node`/`add_edge` satisfy this. -/
def Closed (g : Graph) : Prop :=
  ∀ i ∈ g.allIds, g.neighborsOf i ⊆ g.allIds

/-- Neighbor records are symmetric at the id level: `add_edge` stores each
edge in both endpoint nodes, so this holds for graphs built through it. -/
def Symm (g : Graph) : Prop :=
  ∀ i ∈ g.allIds, ∀ j ∈ g.neighborsOf i, i ∈ g.neighborsOf j

instance (g : Graph) : Decidable (Closed g) := by
  unfold Closed; infer_instance

instance (g : Graph) : Decidable (Symm g) := by
  unfold Symm; infer_instance

/-- Ascending enumeration of a finite set of ids, used where the Python
code iterates over a set (Python set order is unspecified). -/
def finsetAsc (s : Finset Nat) : List Nat :=
  (List.range (s.sup id + 1)).filter (fun x => x ∈ s)

theorem mem_finsetAsc {s : Finset Nat} {x : Nat} : x ∈ finsetAsc s ↔ x ∈ s := by
  unfold finsetAsc
  simp only [List.mem_filter, List.mem_range, decide_eq_true_eq, and_iff_right_iff_imp]
  intro hx
  exact Nat.lt_succ_of_le (Finset.le_sup (f := id) hx)

theorem finsetAsc_nodup (s : Finset Nat) : (finsetAsc s).Nodup :=
  (List.nodup_range _).filter _

/-- One BFS round of `Graph.connected_component`: pop the front of the
queue; a node not yet visited is appended to the output, its neighbors are
enqueued and it is marked visited; an already visited node is skipped. -/
def bfs (g : Graph) : Nat → List Nat → Finset Nat → List Nat → List Nat
  | 0, _, _, acc => acc
  | _ + 1, [], _, acc => acc
  | fuel + 1, c :: rest, visited, acc =>
    if c ∈ visited then
      bfs g fuel rest visited acc
    else
      bfs g fuel (rest ++ finsetAsc (g.neighborsOf c)) (insert c visited) (acc ++ [c])

/-- Upper bound on the neighbor-set size of any node of the graph. -/
def maxNbr (g : Graph) : Nat :=
  (g.nodes.map (fun p => (p.2.incoming ∪ p.2.outgoing).card)).foldr max 0

/-- Fuel sufficient for the BFS starting from a single-element queue. -/
def bfsFuel (g : Graph) : Nat :=
  1 + g.allIds.card * (1 + maxNbr g)

/-- The traversal part of `Graph.connected_component` (run after the
in-graph check succeeded): BFS from `s` with all visited flags reset. -/
def Graph.connected_component_list (g : Graph) (s : Nat) : List Nat :=
  bfs g (bfsFuel g) [s] ∅ []

/-- Model of `Graph.connected_component`: raises (`none`) when the starting id is
absent, otherwise runs the BFS. -/
def Graph.connected_component (g : Graph) (s : Nat) : Option (List Nat) :=
  if s ∈ g.allIds then some (g.connected_component_list s) else none

/-- Loop of `Graph.all_connected_components`: repeatedly pop an unassigned
id, collect its component and discard its members, until no id remains.
The fuel is sufficient because each round removes at least the popped id. -/
def acc_components (g : Graph) : Nat → Finset Nat → List (List Nat)
  | 0, _ => []
  | fuel + 1, ids =>
    if h : ids.Nonempty then
      let start := ids.min' h
      let comp := g.connected_component_list start
      comp :: acc_components g fuel (ids \ comp.toFinset)
    else []

/-- Model of `Graph.all_connected_components`. -/
def Graph.all_connected_components (g : Graph) : List (List Nat) :=
  acc_components g (g.allIds.card + 1) g.allIds

/-- Model of `Graph.all_parents`: ids of nodes with outgoing edges. -/
def Graph.all_parents (g : Graph) : Finset Nat :=
  ((g.nodes.filter (fun p => 0 < p.2.outgoing.card)).map Prod.fst).toFinset

/-- Model of `Graph.all_singletons`: ids of nodes with no neighbors. -/
def Graph.all_singletons (g : Graph) : Finset Nat :=
  ((g.nodes.filter (fun p => (p.2.incoming ∪ p.2.outgoing).card = 0)).map Prod.fst).toFinset

/-- Reachability over the union of incoming and outgoing neighbors: the
weak-component relation of the spec. -/
def Reach (g : Graph) : Nat → Nat → Prop :=
  Relation.ReflTransGen (fun a b => b ∈ g.neighborsOf a)

/-- Model of `User.update_feature` acting on a feature set: a token starting with
the exclusion marker `!` discards the rest of the token from the set,
any other token is added whole. -/
def update_feature (tok : Feat) (s : Finset Feat) : Finset Feat :=
  if tok.head? = some '!' then s.erase tok.tail else insert tok s

/-- The `update_feature` action applied to the node's payload. -/
def upd_node_feature (nd : Node) (tok : Feat) : Node :=
  { nd with features := update_feature tok nd.features }

/-- The call `user.update_feature(feature)` for the user with id `i` (no effect on
an absent id, matching Python where only existing node objects are
iterated). -/
def infect_user (g : Graph) (i : Nat) (tok : Feat) : Graph :=
  ⟨g.nodes.map (fun p => if p.1 = i then (p.1, upd_node_feature p.2 tok) else p)⟩

/-- The loop `for user in users: user.update_feature(feature)` over a list of ids. -/
def infect_list (g : Graph) (l : List Nat) (tok : Feat) : Graph :=
  l.foldl (fun g' i => infect_user g' i tok) g

/-- Same loop over a set of users, iterated in ascending id order. -/
def infect_users (g : Graph) (users : Finset Nat) (tok : Feat) : Graph :=
  infect_list g (finsetAsc users) tok

/-- The feature set of the user with id `i` (empty for an absent id). -/
def featuresOf (g : Graph) (i : Nat) : Finset Feat :=
  match g.find_node i with
  | some nd => nd.features
  | none => ∅

/-- Model of `infect.total_infection`: infect the whole component of the initial
user; `none` when the initial id is absent (the raised exception). -/
def total_infection (g : Graph) (tok : Feat) (initial_user_id : Nat) : Option Graph :=
  (g.connected_component initial_user_id).map (fun infected => infect_list g infected tok)

/-- Stable insertion by candidate size: the new candidate goes before the
first strictly larger one, so equal sizes keep their relative order. -/
def insert_by_card (x : Finset Nat) : List (Finset Nat) → List (Finset Nat)
  | [] => [x]
  | y :: ys => if y.card < x.card then y :: insert_by_card x ys else x :: y :: ys

/-- Model of `infections.sort(key=lambda x: len(x))`: Python's sort is stable, and
a stable sort by size is uniquely determined, so this insertion sort
computes the same list. -/
def sort_by_card : List (Finset Nat) → List (Finset Nat)
  | [] => []
  | x :: xs => insert_by_card x (sort_by_card xs)

/-- Tail loop of `infect.trim_infections`, carrying the size of the last
retained candidate. -/
def trim_go (delta : ℚ) : List (Finset Nat) → ℚ → List (Finset Nat)
  | [], _ => []
  | x :: xs, last =>
    if (x.card : ℚ) > last * (1 + delta) then x :: trim_go delta xs (x.card : ℚ)
    else trim_go delta xs last

/-- Model of `infect.trim_infections`: always keep the first candidate, then keep a
candidate only when its size exceeds the last kept size by more than a
factor `1 + delta`.  (Python raises `IndexError` on an empty list; all
call sites pass nonempty lists.) -/
def trim_infections (infections : List (Finset Nat)) (delta : ℚ) : List (Finset Nat) :=
  match infections with
  | [] => []
  | first :: rest => first :: trim_go delta rest (first.card : ℚ)

/-- One iteration of the frontier loop shared by
`approx_component_infection` and `approx_class_infection`: extend every
candidate by the seed's members, drop candidates exceeding `max_users`,
merge, sort by size and trim with `delta = epsilon / (2 n)`. -/
def approx_step (max_users : Nat) (epsilon : ℚ) (n : Nat)
    (infections : List (Finset Nat)) (seed : Finset Nat) : List (Finset Nat) :=
  let new_infections :=
    (infections.map (fun x => x ∪ seed)).filter (fun x => x.card ≤ max_users)
  trim_infections (sort_by_card (infections ++ new_infections)) (epsilon / (2 * (n : ℚ)))

/-- The frontier procedure over a list of candidate units, starting from
the empty infection and returning the last (largest) survivor.  The
unguarded Python division `float(max_users)/min_users` raises
`ZeroDivisionError` when `min_users = 0`, modelled as `none`. -/
def approx_infection (units : List (Finset Nat)) (min_users max_users : Nat) :
    Option (Finset Nat) :=
  if min_users = 0 then none
  else
    let epsilon : ℚ := (max_users : ℚ) / (min_users : ℚ) - 1
    let n := units.length
    some ((units.foldl (approx_step max_users epsilon n) [∅]).getLastD ∅)

/-- Model of `infect.approx_component_infection`: the frontier procedure whose
units are the connected components. -/
def approx_component_infection (g : Graph) (min_users max_users : Nat) :
    Option (Finset Nat) :=
  approx_infection (g.all_connected_components.map List.toFinset) min_users max_users

/-- The class of a seed user: the user together with the users it coaches
(`set([seed]) | set(seed.coaches())`). -/
def class_unit (g : Graph) (s : Nat) : Finset Nat :=
  insert s (match g.find_node s with
            | some nd => nd.outgoing
            | none => ∅)

/-- Model of `infect.approx_class_infection`: the frontier procedure whose units
are the classes of the seed users. -/
def approx_class_infection (g : Graph) (seeds : Finset Nat) (min_users max_users : Nat) :
    Option (Finset Nat) :=
  approx_infection ((finsetAsc seeds).map (class_unit g)) min_users max_users

/-- Model of `infect.limited_infection`: component infection first, class
infection over the remaining coach and singleton seeds when it falls
short, then infect if the range's lower bound is reached.  The returned
graph is unchanged on failure (`false`). -/
def limited_infection (g : Graph) (tok : Feat) (min_users max_users : Nat) :
    Option (Graph × Bool) :=
  (approx_component_infection g min_users max_users).bind (fun users =>
    (if users.card < min_users then
      (approx_class_infection g ((g.all_parents ∪ g.all_singletons) \ users)
          (min_users - users.card) (max_users - users.card)).map
        (fun class_users => users ∪ class_users)
    else some users).map (fun final =>
      if min_users ≤ final.card then (infect_users g final tok, true) else (g, false)))

/-- Inner loop of `infect.exact_subset_sum`, with the body of the
recursive call at index `j` inlined: `i` is the caller's index (`-1` for
the sentinel top-level call), `subtotal` its running sum, `j` the loop
counter.  Success propagates the chosen indices, appending real callers.
The loop runs at most `n - j` further rounds, so any fuel of at least
`n - j` (the entry passes `n`) gives the exhaustive Python behavior. -/
def ess_loop (sizes : List Nat) (target : Nat) (n : Nat) :
    Nat → Int → Nat → Nat → Option (List Int)
  | 0, _, _, _ => none
  | fuel + 1, i, subtotal, j =>
    if j < n then
      let sub' := subtotal + sizes.getD j 0
      let r : Option (List Int) :=
        if sub' = target then some [(j : Int)]
        else if sub' > target then none
        else ess_loop sizes target n fuel (j : Int) sub' (j + 1)
      match r with
      | some ret => some (if i > -1 then ret ++ [i] else ret)
      | none => ess_loop sizes target n fuel i subtotal (j + 1)
    else none

/-- Model of `infect.exact_subset_sum` for a call with index `i ≥ -1`: immediate
success when the subtotal hits the target, pruning when it exceeds it,
otherwise the loop over the remaining indices. -/
def exact_subset_sum (sizes : List Nat) (target : Nat) (i : Int) (n : Nat)
    (subtotal : Nat) : Option (List Int) :=
  if subtotal = target then some [i]
  else if subtotal > target then none
  else ess_loop sizes target n n i subtotal (i + 1).toNat

/-- Python list indexing, where a negative index counts from the end and
an out-of-range index raises `IndexError` (`none`). -/
def py_index {α : Type} (l : List α) (i : Int) : Option α :=
  let k : Int := if i < 0 then (l.length : Int) + i else i
  if k < 0 then none else l.get? k.toNat

/-- Model of `infect.exact_limited_infection`: solve subset sum over the component
sizes; on success infect every member of each component selected by the
returned indices (`none` models an uncaught `IndexError`). -/
def exact_limited_infection (g : Graph) (tok : Feat) (num_users : Nat) :
    Option (Graph × Bool) :=
  let components := g.all_connected_components
  let sizes := components.map List.length
  match exact_subset_sum sizes num_users (-1) sizes.length 0 with
  | some solution =>
    (solution.foldlM (fun g' i =>
        (py_index components i).map (fun comp => infect_list g' comp tok)) g).map
      (fun g'' => (g'', true))
  | none => some (g, false)

/-- Concrete coaching graph: user 0 coaches user 1, one component. -/
def gPair : Graph :=
  ⟨[(0, ⟨∅, {1}, ∅⟩), (1, ⟨{0}, ∅, ∅⟩)]⟩

/-- Concrete coaching graph: two isolated users, two components. -/
def gTwoSingles : Graph :=
  ⟨[(0, ⟨∅, ∅, ∅⟩), (1, ⟨∅, ∅, ∅⟩)]⟩

/-- Concrete coaching graph: one isolated user. -/
def gOne : Graph :=
  ⟨[(0, ⟨∅, ∅, ∅⟩)]⟩

/-- A concrete feature token. -/
def tokX : Feat := ['x']

/-! ### Basic lemmas about lookup and the feature updates -/

theorem lookup_eq_none_iff {l : List (Nat × Node)} {i : Nat} :
    l.lookup i = none ↔ i ∉ l.map Prod.fst := by
  induction l with
  | nil => simp
  | cons p rest ih =>
    by_cases h : i = p.1
    · subst h
      simp [List.lookup]
    · simp [List.lookup, beq_false_of_ne h, ih, Ne.symm h, h]

theorem find_node_eq_none_iff {g : Graph} {i : Nat} :
    g.find_node i = none ↔ i ∉ g.allIds := by
  simp only [Graph.find_node, Graph.allIds, lookup_eq_none_iff, List.mem_toFinset]

theorem find_node_isSome_of_mem {g : Graph} {i : Nat} (h : i ∈ g.allIds) :
    ∃ nd, g.find_node i = some nd := by
  rcases hfind : g.find_node i with _ | nd
  · exact absurd (find_node_eq_none_iff.mp hfind) (not_not_intro h)
  · exact ⟨nd, rfl⟩

theorem lookup_map_snd (l : List (Nat × Node)) (F : Nat → Node → Node) (j : Nat) :
    (l.map (fun p => (p.1, F p.1 p.2))).lookup j = (l.lookup j).map (F j) := by
  induction l with
  | nil => simp
  | cons p rest ih =>
    by_cases h : j = p.1
    · subst h
      simp [List.lookup]
    · simp [List.lookup, beq_false_of_ne h, ih]

theorem update_feature_idem (tok : Feat) (s : Finset Feat) :
    update_feature tok (update_feature tok s) = update_feature tok s := by
  unfold update_feature
  split
  · exact Finset.erase_idem
  · exact Finset.insert_idem _ _

theorem upd_node_feature_idem (nd : Node) (tok : Feat) :
    upd_node_feature (upd_node_feature nd tok) tok = upd_node_feature nd tok := by
  simp [upd_node_feature, update_feature_idem]

/-- The update `infect_user` rewritten as a key-preserving map over the entries. -/
theorem infect_user_eq_map (g : Graph) (i : Nat) (tok : Feat) :
    infect_user g i tok =
      ⟨g.nodes.map (fun p => (p.1, if p.1 = i then upd_node_feature p.2 tok else p.2))⟩ := by
  unfold infect_user
  congr 1
  apply List.map_congr_left
  intro p _
  by_cases h : p.1 = i <;> simp [h]

/-- The loop `infect_list` rewritten as a single key-preserving map over the entries. -/
theorem infect_list_eq_map (l : List Nat) (g : Graph) (tok : Feat) :
    infect_list g l tok =
      ⟨g.nodes.map (fun p => (p.1, if p.1 ∈ l then upd_node_feature p.2 tok else p.2))⟩ := by
  induction l generalizing g with
  | nil =>
    simp only [infect_list, List.foldl_nil, List.not_mem_nil, if_false]
    cases g with
    | mk nodes => simp
  | cons i rest ih =>
    show infect_list (infect_user g i tok) rest tok = _
    rw [ih, infect_user_eq_map]
    congr 1
    simp only [List.map_map]
    apply List.map_congr_left
    intro p _
    simp only [Function.comp_apply, List.mem_cons]
    by_cases hi : p.1 = i
    · by_cases hr : p.1 ∈ rest <;>
        simp [hi, hr, upd_node_feature_idem]
    · by_cases hr : p.1 ∈ rest <;> simp [hi, hr]

theorem find_node_infect_list (g : Graph) (l : List Nat) (tok : Feat) (j : Nat) :
    (infect_list g l tok).find_node j =
      if j ∈ l then (g.find_node j).map (fun nd => upd_node_feature nd tok)
      else g.find_node j := by
  rw [infect_list_eq_map]
  have h := lookup_map_snd g.nodes (fun k nd => if k ∈ l then upd_node_feature nd tok else nd) j
  by_cases hj : j ∈ l
  · simpa [Graph.find_node, hj] using h
  · simpa [Graph.find_node, hj] using h

theorem featuresOf_infect_list (g : Graph) (l : List Nat) (tok : Feat) (j : Nat)
    (hj : j ∈ g.allIds) :
    featuresOf (infect_list g l tok) j =
      if j ∈ l then update_feature tok (featuresOf g j) else featuresOf g j := by
  obtain ⟨nd, hnd⟩ := find_node_isSome_of_mem hj
  by_cases h : j ∈ l <;>
    simp [featuresOf, find_node_infect_list, h, hnd, upd_node_feature]

/-! ### Infection changes no id, neighbor structure or size bound -/

theorem map_fst_infect_list (g : Graph) (l : List Nat) (tok : Feat) :
    (infect_list g l tok).nodes.map Prod.fst = g.nodes.map Prod.fst := by
  rw [infect_list_eq_map]
  simp

theorem allIds_infect_list (g : Graph) (l : List Nat) (tok : Feat) :
    (infect_list g l tok).allIds = g.allIds := by
  unfold Graph.allIds
  rw [map_fst_infect_list]

theorem neighborsOf_infect_list (g : Graph) (l : List Nat) (tok : Feat) (j : Nat) :
    (infect_list g l tok).neighborsOf j = g.neighborsOf j := by
  unfold Graph.neighborsOf
  rw [find_node_infect_list]
  by_cases h : j ∈ l
  · simp only [h, if_true]
    cases g.find_node j <;> simp [upd_node_feature]
  · simp [h]

theorem maxNbr_infect_list (g : Graph) (l : List Nat) (tok : Feat) :
    maxNbr (infect_list g l tok) = maxNbr g := by
  rw [infect_list_eq_map]
  unfold maxNbr
  simp only [List.map_map]
  congr 1
  apply List.map_congr_left
  intro p _
  by_cases h : p.1 ∈ l <;> simp [h, upd_node_feature]

theorem bfs_congr (g₁ g₂ : Graph) (h : ∀ i, g₁.neighborsOf i = g₂.neighborsOf i)
    (fuel : Nat) :
    ∀ queue visited acc, bfs g₁ fuel queue visited acc = bfs g₂ fuel queue visited acc := by
  induction fuel with
  | zero => intro q v a; rfl
  | succ f ih =>
    intro q v a
    cases q with
    | nil => rfl
    | cons c rest =>
      simp only [bfs]
      rw [h c]
      by_cases hc : c ∈ v <;> simp [hc, ih]

theorem connected_component_list_infect_list (g : Graph) (l : List Nat) (tok : Feat)
    (s : Nat) :
    (infect_list g l tok).connected_component_list s = g.connected_component_list s := by
  unfold Graph.connected_component_list bfsFuel
  rw [allIds_infect_list, maxNbr_infect_list]
  exact bfs_congr _ _ (fun i => neighborsOf_infect_list g l tok i) _ [s] ∅ []

theorem connected_component_infect_list (g : Graph) (l : List Nat) (tok : Feat)
    (s : Nat) :
    (infect_list g l tok).connected_component s = g.connected_component s := by
  unfold Graph.connected_component
  rw [allIds_infect_list, connected_component_list_infect_list]

theorem infect_list_twice (g : Graph) (l : List Nat) (tok : Feat) :
    infect_list (infect_list g l tok) l tok = infect_list g l tok := by
  rw [infect_list_eq_map (g := g), infect_list_eq_map]
  congr 1
  simp only [List.map_map]
  apply List.map_congr_left
  intro p _
  by_cases h : p.1 ∈ l <;> simp [h, upd_node_feature_idem]

/-- C7: `total_infection` is idempotent: for every graph, feature token
and anchor id, running it twice in succession produces exactly the state
(in particular every user's feature set) that running it once produces. -/
theorem total_infection_idempotent (g : Graph) (tok : Feat) (s : Nat) :
    (total_infection g tok s).bind (fun g' => total_infection g' tok s) =
      total_infection g tok s := by
  unfold total_infection
  by_cases hs : s ∈ g.allIds
  · simp [Graph.connected_component, hs, connected_component_list_infect_list,
      allIds_infect_list, infect_list_twice]
  · simp [Graph.connected_component, hs]

/-- C8: for a token `x` not starting with the exclusion marker,
`update_feature x` then `update_feature ("!" ++ x)` leaves the feature set
without `x`; discarding an absent feature is a no-op; and both the add
branch and the discard branch of `update_feature` are idempotent. -/
theorem update_feature_algebra (x : Feat) (s : Finset Feat)
    (hx : x.head? ≠ some '!') :
    x ∉ update_feature ('!' :: x) (update_feature x s) ∧
    (x ∉ s → update_feature ('!' :: x) s = s) ∧
    update_feature x (update_feature x s) = update_feature x s ∧
    update_feature ('!' :: x) (update_feature ('!' :: x) s) =
      update_feature ('!' :: x) s := by
  refine ⟨?_, ?_, update_feature_idem x s, update_feature_idem _ s⟩
  · simp only [update_feature, List.head?_cons, if_true, List.tail_cons, hx, if_false]
    exact Finset.not_mem_erase x _
  · intro hxs
    simp [update_feature, Finset.erase_eq_of_not_mem hxs]

theorem update_feature_algebra_witness :
    (['a'] : Feat).head? ≠ some '!' ∧
      ['a'] ∉ update_feature ('!' :: ['a']) (update_feature ['a'] (∅ : Finset Feat)) :=
  ⟨by decide, (update_feature_algebra ['a'] ∅ (by decide)).1⟩

/-- C6: looking up an absent id fails with the not-found error, and
`total_infection` from an absent anchor fails the same way, mutating no
feature set; from a present anchor it updates the feature of every member
of the anchor's connected component. -/
theorem total_infection_error_contract (g : Graph) (tok : Feat) (a : Nat) :
    (a ∉ g.allIds → g.find_node a = none ∧ total_infection g tok a = none) ∧
    (a ∈ g.allIds → ∃ comp, g.connected_component a = some comp ∧
      total_infection g tok a = some (infect_list g comp tok) ∧
      ∀ j ∈ comp, (infect_list g comp tok).find_node j =
        (g.find_node j).map (fun nd => upd_node_feature nd tok)) := by
  constructor
  · intro ha
    refine ⟨find_node_eq_none_iff.mpr ha, ?_⟩
    simp [total_infection, Graph.connected_component, ha]
  · intro ha
    refine ⟨g.connected_component_list a, ?_, ?_, ?_⟩
    · simp [Graph.connected_component, ha]
    · simp [total_infection, Graph.connected_component, ha]
    · intro j hj
      rw [find_node_infect_list]
      simp [hj]

theorem total_infection_error_contract_witness :
    (5 ∉ gPair.allIds ∧ gPair.find_node 5 = none ∧
      total_infection gPair tokX 5 = none) ∧
    (0 ∈ gPair.allIds ∧ ∃ comp, gPair.connected_component 0 = some comp ∧
      total_infection gPair tokX 0 = some (infect_list gPair comp tokX) ∧
      ∀ j ∈ comp, (infect_list gPair comp tokX).find_node j =
        (gPair.find_node j).map (fun nd => upd_node_feature nd tokX)) :=
  ⟨⟨by decide, (total_infection_error_contract gPair tokX 5).1 (by decide)⟩,
   ⟨by decide, (total_infection_error_contract gPair tokX 0).2 (by decide)⟩⟩

/-- C1: evaluation of the code at the failing input.  On the two-user
one-component graph, `exact_limited_infection` with target count 0
reports success but infects both users: the sentinel `-1` returned by
`exact_subset_sum` when the subtotal already equals the target is used as
a Python index and selects the last component, although the only subset
of component sizes summing to 0 is the empty one, so no user may gain the
feature. -/
theorem exact_limited_infection_zero_target_infects :
    gPair.all_connected_components = [[0, 1]] ∧
    featuresOf gPair 0 = ∅ ∧ featuresOf gPair 1 = ∅ ∧
    exact_subset_sum ([2] : List Nat) 0 (-1) 1 0 = some [-1] ∧
    (exact_limited_infection gPair tokX 0).map
      (fun r => (r.2, featuresOf r.1 0, featuresOf r.1 1)) =
      some (true, {tokX}, {tokX}) := by
  refine ⟨by decide, by with_unfolding_all rfl, by with_unfolding_all rfl,
    by decide, by with_unfolding_all rfl⟩

/-- C3: evaluation of the code at the failing input.  On the graph of two
isolated users the union of the two whole components has size 2, inside
the range [2, 10], yet `approx_component_infection` returns a largest
surviving candidate of size 1 < 2: with `epsilon = 10/2 - 1 = 4` and
`delta = epsilon/(2*2) = 1`, the trim step drops both the second
singleton and the two-user union, contradicting the claimed guarantee. -/
theorem approx_component_infection_misses_range :
    gTwoSingles.all_connected_components.map List.toFinset = [{0}, {1}] ∧
    ({0} ∪ {1} : Finset Nat).card = 2 ∧
    approx_component_infection gTwoSingles 2 10 = some {0} ∧
    ({0} : Finset Nat).card < 2 := by
  refine ⟨by with_unfolding_all rfl, by with_unfolding_all decide,
    by with_unfolding_all rfl, by with_unfolding_all decide⟩

/-- C9: calling the approximate solvers with `min_users = 0` hits the
unguarded division `float(max_users)/min_users` and fails before any
feature mutation, returning no success/failure result; with
`min_users ≥ 1` the division (and the per-step `delta` division, reached
only when at least one seed is processed) is defined and both solvers
always return a result. -/
theorem division_by_zero_guard (g : Graph) (tok : Feat) (max_users : Nat) :
    (approx_component_infection g 0 max_users = none ∧
      limited_infection g tok 0 max_users = none) ∧
    ∀ min_users, 1 ≤ min_users →
      (approx_component_infection g min_users max_users).isSome ∧
      (limited_infection g tok min_users max_users).isSome := by
  constructor
  · exact ⟨rfl, rfl⟩
  · intro m hm
    have hm0 : m ≠ 0 := by omega
    constructor
    · simp [approx_component_infection, approx_infection, hm0]
    · unfold limited_infection
      rcases hc : approx_component_infection g m max_users with _ | u
      · simp [approx_component_infection, approx_infection, hm0] at hc
      · by_cases hu : u.card < m
        · have hsub : m - u.card ≠ 0 := Nat.sub_ne_zero_of_lt hu
          simp [hu, approx_class_infection, approx_infection, hsub]
        · simp [hu]

theorem division_by_zero_guard_witness :
    1 ≤ 1 ∧ (approx_component_infection gOne 1 2).isSome ∧
      (limited_infection gOne tokX 1 2).isSome :=
  ⟨by decide, (division_by_zero_guard gOne tokX 2).2 1 (by decide)⟩

/-! ### The frontier never keeps a candidate larger than `max_users` -/

theorem insert_by_card_perm (x : Finset Nat) (l : List (Finset Nat)) :
    (insert_by_card x l).Perm (x :: l) := by
  induction l with
  | nil => exact List.Perm.refl _
  | cons y ys ih =>
    by_cases h : y.card < x.card
    · simp only [insert_by_card, h, if_true]
      exact (ih.cons y).trans (List.Perm.swap x y ys)
    · simp [insert_by_card, h]

theorem sort_by_card_perm (l : List (Finset Nat)) : (sort_by_card l).Perm l := by
  induction l with
  | nil => exact List.Perm.refl _
  | cons x xs ih => exact (insert_by_card_perm x (sort_by_card xs)).trans (ih.cons x)

theorem mem_trim_go {delta : ℚ} {l : List (Finset Nat)} {last : ℚ} {y : Finset Nat}
    (h : y ∈ trim_go delta l last) : y ∈ l := by
  induction l generalizing last with
  | nil => exact absurd h (List.not_mem_nil y)
  | cons x xs ih =>
    by_cases hx : (x.card : ℚ) > last * (1 + delta)
    · simp only [trim_go, hx, if_true, List.mem_cons] at h
      rcases h with h | h
      · exact h ▸ List.mem_cons_self x xs
      · exact List.mem_cons_of_mem x (ih h)
    · simp only [trim_go, hx, if_false] at h
      exact List.mem_cons_of_mem x (ih h)

theorem mem_trim_infections {l : List (Finset Nat)} {delta : ℚ} {y : Finset Nat}
    (h : y ∈ trim_infections l delta) : y ∈ l := by
  cases l with
  | nil => exact absurd h (List.not_mem_nil y)
  | cons first rest =>
    simp only [trim_infections, List.mem_cons] at h ⊢
    rcases h with h | h
    · exact Or.inl h
    · exact Or.inr (mem_trim_go h)

theorem approx_step_bound {max_users : Nat} {epsilon : ℚ} {n : Nat}
    {infections : List (Finset Nat)} {seed : Finset Nat}
    (h : ∀ c ∈ infections, c.card ≤ max_users) :
    ∀ c ∈ approx_step max_users epsilon n infections seed, c.card ≤ max_users := by
  intro c hc
  have hmem := mem_trim_infections hc
  have hmem2 := (sort_by_card_perm _).mem_iff.mp hmem
  rcases List.mem_append.mp hmem2 with hold | hnew
  · exact h c hold
  · rcases List.mem_filter.mp hnew with ⟨_, hle⟩
    exact Nat.le_of_ble_eq_true (by simpa using hle)

theorem foldl_approx_bound {max_users : Nat} {epsilon : ℚ} {n : Nat} :
    ∀ (units : List (Finset Nat)) (infections : List (Finset Nat)),
      (∀ c ∈ infections, c.card ≤ max_users) →
      ∀ c ∈ units.foldl (approx_step max_users epsilon n) infections, c.card ≤ max_users := by
  intro units
  induction units with
  | nil => intro infections h c hc; exact h c hc
  | cons u rest ih =>
    intro infections h c hc
    exact ih _ (approx_step_bound h) c hc

theorem getLastD_mem_of_ne_nil {l : List (Finset Nat)} (h : l ≠ []) (d : Finset Nat) :
    l.getLastD d ∈ l := by
  induction l generalizing d with
  | nil => exact absurd rfl h
  | cons a as ih =>
    rw [List.getLastD_cons]
    by_cases ha : as = []
    · subst ha; simp
    · exact List.mem_cons_of_mem a (ih ha a)

theorem approx_infection_card_le {units : List (Finset Nat)} {m M : Nat} {S : Finset Nat}
    (h : approx_infection units m M = some S) : S.card ≤ M := by
  unfold approx_infection at h
  by_cases hm : m = 0
  · simp [hm] at h
  · simp only [hm, if_false, Option.some.injEq] at h
    have hbound := @foldl_approx_bound M ((M : ℚ) / (m : ℚ) - 1) units.length units [∅]
      (by intro c hc; simp at hc; simp [hc])
    subst h
    rcases hl : units.foldl (approx_step M ((M : ℚ) / (m : ℚ) - 1) units.length) [∅] with _ | ⟨a, as⟩
    · simp [hl]
    · rw [hl] at hbound
      exact hbound _ (getLastD_mem_of_ne_nil (by simp) ∅)

/-- C2: `limited_infection` that reports failure returns the graph
unchanged (every feature set exactly as before); `limited_infection` that
reports success infects a user set `S` with
`min_users ≤ |S| ≤ max_users`: every member's feature set is updated with
the token and no user outside `S` changes at all. -/
theorem limited_infection_contract (g : Graph) (tok : Feat)
    (min_users max_users : Nat) (g' : Graph) (ok : Bool)
    (h : limited_infection g tok min_users max_users = some (g', ok)) :
    (ok = false → g' = g) ∧
    (ok = true → ∃ S : Finset Nat,
      min_users ≤ S.card ∧ S.card ≤ max_users ∧
      g' = infect_users g S tok ∧
      (∀ j ∈ S, g'.find_node j =
        (g.find_node j).map (fun nd => upd_node_feature nd tok)) ∧
      (∀ j ∉ S, g'.find_node j = g.find_node j)) := by
  unfold limited_infection at h
  rcases hc : approx_component_infection g min_users max_users with _ | u
  · rw [hc] at h
    cases h
  · rw [hc, Option.some_bind] at h
    have hu_le : u.card ≤ max_users := approx_infection_card_le hc
    -- the final user set and its upper bound, by cases on the class phase
    have hfin : ∃ final : Finset Nat, final.card ≤ max_users ∧
        (if min_users ≤ final.card then (infect_users g final tok, true)
         else (g, false)) = (g', ok) := by
      by_cases hu : u.card < min_users
      · rw [if_pos hu] at h
        rcases hcls : approx_class_infection g
            ((g.all_parents ∪ g.all_singletons) \ u)
            (min_users - u.card) (max_users - u.card) with _ | cls
        · rw [hcls] at h
          cases h
        · rw [hcls] at h
          simp only [Option.map_some', Option.some_bind] at h
          refine ⟨u ∪ cls, ?_, by simpa using h⟩
          calc (u ∪ cls).card ≤ u.card + cls.card := Finset.card_union_le u cls
            _ ≤ u.card + (max_users - u.card) :=
              Nat.add_le_add_left (approx_infection_card_le hcls) _
            _ = max_users := Nat.add_sub_cancel' hu_le
      · rw [if_neg hu] at h
        simp only [Option.map_some'] at h
        exact ⟨u, hu_le, by simpa using h⟩
    obtain ⟨final, hfin_le, hfin_eq⟩ := hfin
    by_cases hmin : min_users ≤ final.card
    · rw [if_pos hmin] at hfin_eq
      obtain ⟨hg', hok⟩ := Prod.mk.injEq .. ▸ hfin_eq
      constructor
      · intro hfalse
        rw [← hok] at hfalse
        cases hfalse
      · intro _
        refine ⟨final, hmin, hfin_le, hg'.symm, ?_, ?_⟩
        · intro j hj
          rw [← hg']
          unfold infect_users
          rw [find_node_infect_list]
          simp [mem_finsetAsc, hj]
        · intro j hj
          rw [← hg']
          unfold infect_users
          rw [find_node_infect_list]
          simp [mem_finsetAsc, hj]
    · rw [if_neg hmin] at hfin_eq
      obtain ⟨hg', hok⟩ := Prod.mk.injEq .. ▸ hfin_eq
      constructor
      · intro _
        exact hg'.symm
      · intro htrue
        rw [← hok] at htrue
        cases htrue

theorem limited_infection_contract_witness :
    limited_infection gOne tokX 1 2 = some (infect_users gOne {0} tokX, true) ∧
    ((true = false → infect_users gOne {0} tokX = gOne) ∧
     (true = true → ∃ S : Finset Nat,
       1 ≤ S.card ∧ S.card ≤ 2 ∧
       infect_users gOne {0} tokX = infect_users gOne S tokX ∧
       (∀ j ∈ S, (infect_users gOne {0} tokX).find_node j =
         (gOne.find_node j).map (fun nd => upd_node_feature nd tokX)) ∧
       (∀ j ∉ S, (infect_users gOne {0} tokX).find_node j = gOne.find_node j))) :=
  ⟨by with_unfolding_all rfl,
   limited_infection_contract gOne tokX 1 2 (infect_users gOne {0} tokX) true
     (by with_unfolding_all rfl)⟩

/-! ### BFS reaches exactly the weak component -/

theorem reach_mem_allIds {g : Graph} (hclosed : Closed g) {x y : Nat}
    (hx : x ∈ g.allIds) (h : Reach g x y) : y ∈ g.allIds := by
  induction h with
  | refl => exact hx
  | tail _ hstep ih => exact hclosed _ ih hstep

theorem reach_symm {g : Graph} (hclosed : Closed g) (hsymm : Symm g) {x y : Nat}
    (hx : x ∈ g.allIds) (h : Reach g x y) : Reach g y x := by
  induction h with
  | refl => exact Relation.ReflTransGen.refl
  | tail hab hstep ih =>
    have hb := reach_mem_allIds hclosed hx hab
    exact Relation.ReflTransGen.head (hsymm _ hb _ hstep) ih

/-- A path starting inside a set whose neighbors all lie in the set or in
the queue either stays in the set or passes through a queue element. -/
theorem reach_escape (g : Graph) (V : Finset Nat) (Q : List Nat)
    (hVQ : ∀ v ∈ V, ∀ w ∈ g.neighborsOf v, w ∈ V ∨ w ∈ Q) {x y : Nat}
    (hr : Reach g x y) : x ∈ V → y ∈ V ∨ ∃ q ∈ Q, Reach g q y := by
  induction hr using Relation.ReflTransGen.head_induction_on with
  | refl => exact fun hy => Or.inl hy
  | head hstep htail ih =>
    intro ha
    rcases hVQ _ ha _ hstep with hb | hb
    · exact ih hb
    · exact Or.inr ⟨_, hb, htail⟩

theorem lookup_mem {l : List (Nat × Node)} {i : Nat} {nd : Node}
    (h : l.lookup i = some nd) : (i, nd) ∈ l := by
  induction l with
  | nil => cases h
  | cons p rest ih =>
    by_cases hp : i = p.1
    · subst hp
      simp only [List.lookup, beq_self_eq_true, Option.some.injEq] at h
      subst h
      exact List.mem_cons_self _ _
    · simp only [List.lookup, beq_false_of_ne hp] at h
      exact List.mem_cons_of_mem _ (ih h)

theorem le_foldr_max {x : Nat} : ∀ {l : List Nat}, x ∈ l → x ≤ l.foldr max 0 := by
  intro l
  induction l with
  | nil => intro h; cases h
  | cons a as ih =>
    intro h
    rcases List.mem_cons.mp h with h | h
    · subst h
      exact Nat.le_max_left _ _
    · exact le_trans (ih h) (Nat.le_max_right _ _)

theorem nbr_card_le_maxNbr {g : Graph} {i : Nat} (hi : i ∈ g.allIds) :
    (g.neighborsOf i).card ≤ maxNbr g := by
  obtain ⟨nd, hnd⟩ := find_node_isSome_of_mem hi
  have hmem : (i, nd) ∈ g.nodes := lookup_mem hnd
  have : (nd.incoming ∪ nd.outgoing).card ∈
      g.nodes.map (fun p => (p.2.incoming ∪ p.2.outgoing).card) :=
    List.mem_map.mpr ⟨(i, nd), hmem, rfl⟩
  have hle := le_foldr_max this
  simpa [Graph.neighborsOf, hnd, maxNbr] using hle

theorem finsetAsc_toFinset (s : Finset Nat) : (finsetAsc s).toFinset = s :=
  Finset.ext fun x => by simp [mem_finsetAsc]

theorem finsetAsc_length (s : Finset Nat) : (finsetAsc s).length = s.card := by
  conv_rhs => rw [← finsetAsc_toFinset s]
  exact (List.toFinset_card_of_nodup (finsetAsc_nodup s)).symm

/-- Main BFS invariant: on a closed graph, with the queue inside the
graph, the output mirroring the visited set, every neighbor of a visited
node either visited or queued, and enough fuel, the BFS output has no
duplicates and lists exactly the already visited nodes together with the
nodes reachable from the queue. -/
theorem bfs_spec (g : Graph) (hclosed : Closed g) :
    ∀ (fuel : Nat) (queue : List Nat) (visited : Finset Nat) (acc : List Nat),
      (∀ x ∈ queue, x ∈ g.allIds) →
      visited ⊆ g.allIds →
      acc.Nodup →
      (∀ x, x ∈ acc ↔ x ∈ visited) →
      (∀ v ∈ visited, ∀ w ∈ g.neighborsOf v, w ∈ visited ∨ w ∈ queue) →
      queue.length + (g.allIds \ visited).card * (1 + maxNbr g) ≤ fuel →
      (bfs g fuel queue visited acc).Nodup ∧
      (∀ y, y ∈ bfs g fuel queue visited acc ↔
        (y ∈ visited ∨ ∃ x ∈ queue, Reach g x y)) := by
  intro fuel
  induction fuel with
  | zero =>
    intro queue visited acc hq hv hnd hacc hI4 hfuel
    have hq0 : queue = [] := by
      cases queue with
      | nil => rfl
      | cons c rest => simp at hfuel
    subst hq0
    exact ⟨hnd, fun y => by simp [bfs, hacc y]⟩
  | succ f ih =>
    intro queue visited acc hq hv hnd hacc hI4 hfuel
    cases queue with
    | nil =>
      exact ⟨hnd, fun y => by simp [bfs, hacc y]⟩
    | cons c rest =>
      have hcall : c ∈ g.allIds := hq c (List.mem_cons_self c rest)
      by_cases hc : c ∈ visited
      · -- the popped node was already visited: skipped, not re-expanded
        have hstep : bfs g (f + 1) (c :: rest) visited acc = bfs g f rest visited acc := by
          simp [bfs, hc]
        rw [hstep]
        have hI4' : ∀ v ∈ visited, ∀ w ∈ g.neighborsOf v, w ∈ visited ∨ w ∈ rest := by
          intro v hvv w hw
          rcases hI4 v hvv w hw with h | h
          · exact Or.inl h
          · rcases List.mem_cons.mp h with h | h
            · exact Or.inl (h ▸ hc)
            · exact Or.inr h
        have hfuel' : rest.length + (g.allIds \ visited).card * (1 + maxNbr g) ≤ f := by
          simp only [List.length_cons] at hfuel
          omega
        obtain ⟨hnd', hiff⟩ := ih rest visited acc
          (fun x hx => hq x (List.mem_cons_of_mem c hx)) hv hnd hacc hI4' hfuel'
        refine ⟨hnd', fun y => ?_⟩
        rw [hiff y]
        constructor
        · rintro (h | ⟨x, hx, hr⟩)
          · exact Or.inl h
          · exact Or.inr ⟨x, List.mem_cons_of_mem c hx, hr⟩
        · rintro (h | ⟨x, hx, hr⟩)
          · exact Or.inl h
          · rcases List.mem_cons.mp hx with hxc | hxr
            · rw [hxc] at hr
              exact reach_escape g visited rest hI4' hr hc
            · exact Or.inr ⟨x, hxr, hr⟩
      · -- first visit: append to the output, expand the neighbors
        have hstep : bfs g (f + 1) (c :: rest) visited acc =
            bfs g f (rest ++ finsetAsc (g.neighborsOf c)) (insert c visited)
              (acc ++ [c]) := by
          simp [bfs, hc]
        rw [hstep]
        have hq' : ∀ x ∈ rest ++ finsetAsc (g.neighborsOf c), x ∈ g.allIds := by
          intro x hx
          rcases List.mem_append.mp hx with hx | hx
          · exact hq x (List.mem_cons_of_mem c hx)
          · exact hclosed c hcall (mem_finsetAsc.mp hx)
        have hv' : insert c visited ⊆ g.allIds := by
          intro x hx
          rcases Finset.mem_insert.mp hx with hx | hx
          · exact hx ▸ hcall
          · exact hv hx
        have hcacc : c ∉ acc := fun hmem => hc ((hacc c).mp hmem)
        have hnd' : (acc ++ [c]).Nodup := by
          rw [List.nodup_append]
          exact ⟨hnd, List.nodup_singleton c, by simpa using hcacc⟩
        have hacc' : ∀ x, x ∈ acc ++ [c] ↔ x ∈ insert c visited := by
          intro x
          simp only [List.mem_append, List.mem_singleton, hacc x, Finset.mem_insert]
          exact or_comm
        have hI4' : ∀ v ∈ insert c visited, ∀ w ∈ g.neighborsOf v,
            w ∈ insert c visited ∨ w ∈ rest ++ finsetAsc (g.neighborsOf c) := by
          intro v hvv w hw
          rcases Finset.mem_insert.mp hvv with hvc | hvv'
          · subst hvc
            exact Or.inr (List.mem_append.mpr (Or.inr (mem_finsetAsc.mpr hw)))
          · rcases hI4 v hvv' w hw with h | h
            · exact Or.inl (Finset.mem_insert_of_mem h)
            · rcases List.mem_cons.mp h with h | h
              · exact Or.inl (h ▸ Finset.mem_insert_self c visited)
              · exact Or.inr (List.mem_append.mpr (Or.inl h))
        have hcsd : c ∈ g.allIds \ visited := Finset.mem_sdiff.mpr ⟨hcall, hc⟩
        have hfuel' : (rest ++ finsetAsc (g.neighborsOf c)).length +
            (g.allIds \ insert c visited).card * (1 + maxNbr g) ≤ f := by
          have hU : 0 < (g.allIds \ visited).card := Finset.card_pos.mpr ⟨c, hcsd⟩
          have hcard : (g.allIds \ insert c visited).card + 1 =
              (g.allIds \ visited).card := by
            rw [Finset.sdiff_insert, Finset.card_erase_of_mem hcsd]
            omega
          have hnb : (g.neighborsOf c).card ≤ maxNbr g := nbr_card_le_maxNbr hcall
          have hlen : (rest ++ finsetAsc (g.neighborsOf c)).length =
              rest.length + (g.neighborsOf c).card := by
            simp [finsetAsc_length]
          have hexp : (g.allIds \ visited).card * (1 + maxNbr g) =
              (g.allIds \ insert c visited).card * (1 + maxNbr g) +
                (1 + maxNbr g) := by
            rw [← hcard, Nat.succ_mul]
          rw [hexp, List.length_cons] at hfuel
          rw [hlen]
          omega
        obtain ⟨hnd2, hiff⟩ := ih _ (insert c visited) (acc ++ [c]) hq' hv' hnd' hacc' hI4' hfuel'
        refine ⟨hnd2, fun y => ?_⟩
        rw [hiff y]
        constructor
        · rintro (h | ⟨x, hx, hr⟩)
          · rcases Finset.mem_insert.mp h with h | h
            · exact Or.inr ⟨c, List.mem_cons_self c rest, h ▸ Relation.ReflTransGen.refl⟩
            · exact Or.inl h
          · rcases List.mem_append.mp hx with hx | hx
            · exact Or.inr ⟨x, List.mem_cons_of_mem c hx, hr⟩
            · exact Or.inr ⟨c, List.mem_cons_self c rest,
                Relation.ReflTransGen.head (mem_finsetAsc.mp hx) hr⟩
        · rintro (h | ⟨x, hx, hr⟩)
          · exact Or.inl (Finset.mem_insert_of_mem h)
          · rcases List.mem_cons.mp hx with hxc | hxr
            · rw [hxc] at hr
              rcases Relation.ReflTransGen.cases_head hr with hy | ⟨w, hw, hwy⟩
              · exact Or.inl (hy ▸ Finset.mem_insert_self c visited)
              · exact Or.inr ⟨w, List.mem_append.mpr (Or.inr (mem_finsetAsc.mpr hw)), hwy⟩
            · exact Or.inr ⟨x, List.mem_append.mpr (Or.inl hxr), hr⟩

/-- On a closed graph, the BFS from a present start id lists exactly the
weak component of the start, each node once. -/
theorem connected_component_list_char (g : Graph) (hclosed : Closed g) {s : Nat}
    (hs : s ∈ g.allIds) :
    (g.connected_component_list s).Nodup ∧
    (∀ y, y ∈ g.connected_component_list s ↔ Reach g s y) := by
  unfold Graph.connected_component_list
  obtain ⟨hnd, hiff⟩ := bfs_spec g hclosed (bfsFuel g) [s] ∅ []
    (fun x hx => (List.mem_singleton.mp hx) ▸ hs)
    (Finset.empty_subset _) List.nodup_nil (fun x => by simp)
    (fun v hv => absurd hv (Finset.not_mem_empty v))
    (by simp [bfsFuel])
  refine ⟨hnd, fun y => ?_⟩
  rw [hiff y]
  simp

/-- C4: on a graph with closed and symmetric neighbor records,
`connected_component(start_id)` returns a list in which every node of the
weak component of `start_id` (reachability over incoming ∪ outgoing)
appears exactly once and no other node appears — regardless of how often
a node was enqueued or which visited flags earlier traversals left,
since the traversal resets the flags and appends a node only on its
first dequeue; hence two mutually reachable start ids yield components
that are equal as sets. -/
theorem connected_component_contract (g : Graph) (s : Nat)
    (hclosed : Closed g) (hsymm : Symm g) (hs : s ∈ g.allIds) :
    g.connected_component s = some (g.connected_component_list s) ∧
    (g.connected_component_list s).Nodup ∧
    (∀ y, y ∈ g.connected_component_list s ↔ Reach g s y) ∧
    ∀ b, Reach g s b →
      ∀ y, (y ∈ g.connected_component_list b ↔ y ∈ g.connected_component_list s) := by
  obtain ⟨hnd, hchar⟩ := connected_component_list_char g hclosed hs
  refine ⟨by simp [Graph.connected_component, hs], hnd, hchar, ?_⟩
  intro b hsb y
  have hb : b ∈ g.allIds := reach_mem_allIds hclosed hs hsb
  obtain ⟨_, hcharb⟩ := connected_component_list_char g hclosed hb
  rw [hcharb y, hchar y]
  constructor
  · intro hby
    exact hsb.trans hby
  · intro hsy
    exact (reach_symm hclosed hsymm hs hsb).trans hsy

theorem connected_component_contract_witness :
    (Closed gPair ∧ Symm gPair ∧ 0 ∈ gPair.allIds) ∧
    (gPair.connected_component 0 = some (gPair.connected_component_list 0) ∧
     (gPair.connected_component_list 0).Nodup ∧
     (∀ y, y ∈ gPair.connected_component_list 0 ↔ Reach gPair 0 y) ∧
     ∀ b, Reach gPair 0 b →
       ∀ y, (y ∈ gPair.connected_component_list b ↔
             y ∈ gPair.connected_component_list 0)) :=
  ⟨⟨by decide, by decide, by decide⟩,
   connected_component_contract gPair 0 (by decide) (by decide) (by decide)⟩

/-- The component-collection loop, run on any id set that is inside the
graph and closed under reachability, produces pairwise disjoint
components whose union is exactly that id set. -/
theorem acc_components_partition (g : Graph) (hclosed : Closed g) (hsymm : Symm g) :
    ∀ (fuel : Nat) (ids : Finset Nat),
      ids.card < fuel →
      (∀ x ∈ ids, x ∈ g.allIds) →
      (∀ x ∈ ids, ∀ y, Reach g x y → y ∈ ids) →
      List.Pairwise (fun C D => ∀ y, y ∈ C → y ∉ D) (acc_components g fuel ids) ∧
      (∀ y, (∃ C ∈ acc_components g fuel ids, y ∈ C) ↔ y ∈ ids) := by
  intro fuel
  induction fuel with
  | zero =>
    intro ids hcard
    exact absurd hcard (Nat.not_lt_zero _)
  | succ f ih =>
    intro ids hcard hsub hclosed_ids
    by_cases h : ids.Nonempty
    · have hstep : acc_components g (f + 1) ids =
          g.connected_component_list (ids.min' h) ::
            acc_components g f
              (ids \ (g.connected_component_list (ids.min' h)).toFinset) := by
        simp [acc_components, h]
      set start := ids.min' h with hstart
      set comp := g.connected_component_list start with hcomp
      have hstart_ids : start ∈ ids := ids.min'_mem h
      have hstart_all : start ∈ g.allIds := hsub start hstart_ids
      obtain ⟨hnd, hchar⟩ := connected_component_list_char g hclosed hstart_all
      have hcomp_sub : ∀ y ∈ comp, y ∈ ids := fun y hy =>
        hclosed_ids start hstart_ids y ((hchar y).mp hy)
      have hstart_comp : start ∈ comp := (hchar start).mpr Relation.ReflTransGen.refl
      set ids' := ids \ comp.toFinset with hids'
      have hids'_sub : ∀ x ∈ ids', x ∈ g.allIds := fun x hx =>
        hsub x (Finset.mem_sdiff.mp hx).1
      have hids'_closed : ∀ x ∈ ids', ∀ y, Reach g x y → y ∈ ids' := by
        intro x hx y hr
        obtain ⟨hx_ids, hx_ncomp⟩ := Finset.mem_sdiff.mp hx
        refine Finset.mem_sdiff.mpr ⟨hclosed_ids x hx_ids y hr, ?_⟩
        intro hy_comp
        apply hx_ncomp
        rw [List.mem_toFinset] at hy_comp ⊢
        have h1 : Reach g start y := (hchar y).mp hy_comp
        have h2 : Reach g y x := reach_symm hclosed hsymm (hsub x hx_ids) hr
        exact (hchar x).mpr (h1.trans h2)
      have hss : ids' ⊂ ids := by
        refine (Finset.ssubset_iff_of_subset (Finset.sdiff_subset)).mpr ?_
        exact ⟨start, hstart_ids,
          fun hmem => (Finset.mem_sdiff.mp hmem).2 (List.mem_toFinset.mpr hstart_comp)⟩
      have hcard' : ids'.card < f := by
        have hlt : ids'.card < ids.card := Finset.card_lt_card hss
        omega
      obtain ⟨hpw, hun⟩ := ih ids' hcard' hids'_sub hids'_closed
      rw [hstep]
      constructor
      · refine List.Pairwise.cons ?_ hpw
        intro D hD y hy_comp hy_D
        have hy_ids' : y ∈ ids' := (hun y).mp ⟨D, hD, hy_D⟩
        exact (Finset.mem_sdiff.mp hy_ids').2 (List.mem_toFinset.mpr hy_comp)
      · intro y
        constructor
        · rintro ⟨C, hC, hyC⟩
          rcases List.mem_cons.mp hC with hC | hC
          · exact hcomp_sub y (hC ▸ hyC)
          · exact (Finset.mem_sdiff.mp ((hun y).mp ⟨C, hC, hyC⟩)).1
        · intro hy
          by_cases hyc : y ∈ comp
          · exact ⟨comp, List.mem_cons_self _ _, hyc⟩
          · have hy_ids' : y ∈ ids' :=
              Finset.mem_sdiff.mpr ⟨hy, fun hm => hyc (List.mem_toFinset.mp hm)⟩
            obtain ⟨C, hC, hyC⟩ := (hun y).mpr hy_ids'
            exact ⟨C, List.mem_cons_of_mem _ hC, hyC⟩
    · have hempty : ids = ∅ := Finset.not_nonempty_iff_eq_empty.mp h
      subst hempty
      constructor
      · simp [acc_components]
      · intro y
        simp [acc_components]

/-- C5: on a graph with closed and symmetric neighbor records,
`all_connected_components()` returns a partition of the node set: the
components are pairwise disjoint and their union is the full id set. -/
theorem all_connected_components_partition (g : Graph)
    (hclosed : Closed g) (hsymm : Symm g) :
    List.Pairwise (fun C D => ∀ y, y ∈ C → y ∉ D) g.all_connected_components ∧
    (∀ y, (∃ C ∈ g.all_connected_components, y ∈ C) ↔ y ∈ g.allIds) :=
  acc_components_partition g hclosed hsymm (g.allIds.card + 1) g.allIds
    (Nat.lt_succ_self _) (fun _ hx => hx)
    (fun _ hx _ hr => reach_mem_allIds hclosed hx hr)

theorem all_connected_components_partition_witness :
    (Closed gPair ∧ Symm gPair) ∧
    (List.Pairwise (fun C D => ∀ y, y ∈ C → y ∉ D) gPair.all_connected_components ∧
     (∀ y, (∃ C ∈ gPair.all_connected_components, y ∈ C) ↔ y ∈ gPair.allIds)) :=
  ⟨⟨by decide, by decide⟩,
   all_connected_components_partition gPair (by decide) (by decide)⟩
